import Mathlib

/-!
Shallow embedding of `morph_seq2seq/data.py`: vocabulary construction,
sample encoding and padding, batching, and the dataset variants
(`Dataset`, `ValidationDataset`, `InferenceDataset`).

Lines and tokens are modelled as `List Char`; Python `str.split(sep)`
and `str.rstrip` are modelled character by character.  Fallible Python
code (tuple unpacking, `max()` over an empty sequence) is modelled with
`Except PyError`.  Randomness (`np.random.choice`) is modelled by
passing the drawn index list explicitly.
-/

namespace MorphData

/-- A token (Python `str`), as a list of characters. -/
abbrev Tok := List Char

/-- Python `str.split(sep)` with an explicit one-character separator:
`''.split(sep) == ['']`, consecutive separators produce empty fields,
result always has (number of separators + 1) fields. -/
def splitSep (sep : Char) : List Char → List (List Char)
  | [] => [[]]
  | c :: cs =>
    if c = sep then [] :: splitSep sep cs
    else
      match splitSep sep cs with
      | [] => [[c]]
      | t :: ts => (c :: t) :: ts

/-- Python `line.rstrip('\n')`: drop every trailing newline character. -/
def rstripNl (l : List Char) : List Char :=
  (l.reverse.dropWhile (fun c => c = '\n')).reverse

/-- Errors surfaced by the loading code.  `data.py` itself only ever
raises the Python built-in `ValueError` (from tuple unpacking and from
`max()` on an empty sequence), carrying a message.
`emptyDatasetError` is modelled from the spec: §7 of the spec names a
dedicated `EmptyDatasetError` for the empty input stream, but `data.py`
defines no such exception class and no code path of the embedding
produces this constructor. -/
inductive PyError
  | valueError (msg : String)
  | emptyDatasetError
deriving DecidableEq, Repr

/-- `Dataset.CONSTANTS`: the four reserved vocabulary ids. -/
def PAD : Nat := 0
/-- Reserved id 1 (`SOS`). -/
def SOS : Nat := 1
/-- Reserved id 2 (`EOS`). -/
def EOS : Nat := 2
/-- Reserved id 3 (`UNK`). -/
def UNK : Nat := 3

/-- A vocabulary: a Python dict from token to id, as an association
list in insertion order (keys are unique by construction: entries are
only ever added for keys that are absent). -/
abbrev Vocab := List (Tok × Nat)

/-- Dict lookup by key (Python `d[k]` / `d.get(k)` read part):
first match in the association list; with unique keys this is exact
dict semantics. -/
def vlookup (t : Tok) : Vocab → Option Nat
  | [] => none
  | (k, i) :: rest => if k = t then some i else vlookup t rest

/-- The initial reserved entries, inserted in the iteration order of
the `Dataset.CONSTANTS` dict literal: PAD, SOS, EOS, UNK. -/
def CONSTANTS : Vocab :=
  [("PAD".data, PAD), ("SOS".data, SOS), ("EOS".data, EOS), ("UNK".data, UNK)]

/-- Growing (defaultdict) lookup, `self.src_vocab[ch]` with default
factory `lambda: len(vocab)`: if the key is present return its id and
leave the dict unchanged; otherwise assign id = current size, insert,
and return it. -/
def lookupGrow (v : Vocab) (t : Tok) : Nat × Vocab :=
  match vlookup t v with
  | some i => (i, v)
  | none => (v.length, v ++ [(t, v.length)])

/-- Frozen lookup, `vocab.get(ch, UNK)`: existing id, or UNK; never
mutates. -/
def lookupFrozen (v : Vocab) (t : Tok) : Nat :=
  (vlookup t v).getD UNK

/-- The pair of vocabularies owned by a dataset.  With
`share_vocab=True` the source and target vocabularies are one aliased
dict (`self.tgt_vocab = self.src_vocab`): the `shared` constructor
holds that single mapping.  Otherwise they are two independent dicts. -/
inductive Vocabs
  | shared (v : Vocab)
  | separate (src tgt : Vocab)
deriving DecidableEq, Repr

/-- Whether this is the aliased (`share_vocab=True`) configuration. -/
def Vocabs.isShared : Vocabs → Bool
  | .shared _ => true
  | .separate _ _ => false

/-- The mapping reached through the source role (`self.src_vocab`). -/
def Vocabs.srcView : Vocabs → Vocab
  | .shared v => v
  | .separate s _ => s

/-- The mapping reached through the target role (`self.tgt_vocab`). -/
def Vocabs.tgtView : Vocabs → Vocab
  | .shared v => v
  | .separate _ t => t

/-- Growing lookup through the source role; in the shared case it
mutates the single aliased mapping. -/
def Vocabs.srcGrow : Vocabs → Tok → Nat × Vocabs
  | .shared v, t => let r := lookupGrow v t; (r.1, .shared r.2)
  | .separate s g, t => let r := lookupGrow s t; (r.1, .separate r.2 g)

/-- Growing lookup through the target role; in the shared case it
mutates the same aliased mapping as `srcGrow`. -/
def Vocabs.tgtGrow : Vocabs → Tok → Nat × Vocabs
  | .shared v, t => let r := lookupGrow v t; (r.1, .shared r.2)
  | .separate s g, t => let r := lookupGrow g t; (r.1, .separate s r.2)

/-- `Dataset.__init__` vocabulary setup: fresh defaultdict(s), aliased
when `share_vocab` is set, then the reserved constants written into
both roles (in the shared case the second write re-assigns the same
key/value pairs to the one dict, a no-op). -/
def initVocabs (share : Bool) : Vocabs :=
  if share then .shared CONSTANTS else .separate CONSTANTS CONSTANTS

/-- Parse one training/validation line:
`src, tgt = line.rstrip('\n').split('\t')` then split both fields on
single spaces.  Unpacking fails with a `ValueError` unless the split
yields exactly two fields, i.e. the line has exactly one tab. -/
def parseLine (line : List Char) : Except PyError (List Tok × List Tok) :=
  match splitSep '\t' (rstripNl line) with
  | [s, t] => .ok (splitSep ' ' s, splitSep ' ' t)
  | parts =>
    .error (.valueError
      (if parts.length < 2 then "not enough values to unpack (expected 2, got 1)"
       else "too many values to unpack (expected 2)"))

/-- The raw-sample accumulation loop of `load_data_from_stream`:
parse each line in order, aborting with the first line's error. -/
def readRawSamples : List (List Char) → Except PyError (List (List Tok × List Tok))
  | [] => .ok []
  | l :: ls => do
    let p ← parseLine l
    let rest ← readRawSamples ls
    return p :: rest

/-- Python `max(...)` over a list of naturals: `ValueError` on an empty
sequence, otherwise the maximum. -/
def pyMax : List Nat → Except PyError Nat
  | [] => .error (.valueError "max() arg is an empty sequence")
  | x :: xs => .ok (xs.foldl Nat.max x)

/-- One vocabulary-encoding step for a source token: growing
(`self.src_vocab[c]`) or frozen (`self.src_vocab.get(c, UNK)`). -/
def srcStep (frozen : Bool) (vs : Vocabs) (t : Tok) : Nat × Vocabs :=
  if frozen then (lookupFrozen vs.srcView t, vs) else vs.srcGrow t

/-- One vocabulary-encoding step for a target token. -/
def tgtStep (frozen : Bool) (vs : Vocabs) (t : Tok) : Nat × Vocabs :=
  if frozen then (lookupFrozen vs.tgtView t, vs) else vs.tgtGrow t

/-- Encode a token sequence left to right, threading the vocabulary
state (the evaluation order of a Python list comprehension). -/
def encodeSeq (step : Vocabs → Tok → Nat × Vocabs) :
    Vocabs → List Tok → List Nat × Vocabs
  | vs, [] => ([], vs)
  | vs, t :: ts =>
    let r := step vs t
    let rest := encodeSeq step r.2 ts
    (r.1 :: rest.1, rest.2)

/-- The encoding loop of `load_data_from_stream`: for each raw sample,
encode the source tokens then the target tokens (threading the
vocabulary), right-pad the source row with PAD to `srcMax`, append one
EOS to the target row and right-pad with PAD to `tgtMax` (the
pre-increment target maximum). -/
def encodeSamples (frozen : Bool) (srcMax tgtMax : Nat) :
    Vocabs → List (List Tok × List Tok) →
    List (List Nat × List Nat) × Vocabs
  | vs, [] => ([], vs)
  | vs, (src, tgt) :: rest =>
    let s := encodeSeq (srcStep frozen) vs src
    let t := encodeSeq (tgtStep frozen) s.2 tgt
    let r := encodeSamples frozen srcMax tgtMax t.2 rest
    ((s.1 ++ List.replicate (srcMax - src.length) PAD,
      t.1 ++ EOS :: List.replicate (tgtMax - tgt.length) PAD) :: r.1, r.2)

/-- The state `Dataset.load_data_from_stream` leaves behind:
vocabularies, raw samples, encoded samples, the two maximum lengths
(`tgt_maxlen` already incremented by one, as done after the encoding
loop), and the true-length arrays. -/
structure LoadedData where
  vocabs : Vocabs
  raw_samples : List (List Tok × List Tok)
  samples : List (List Nat × List Nat)
  src_maxlen : Nat
  tgt_maxlen : Nat
  src_seqlen : List Nat
  tgt_seqlen : List Nat
deriving Repr

/-- `Dataset.load_data_from_stream(stream, frozen_vocab)`: read and
parse every line, compute the maxima of the raw source/target lengths
(a `ValueError` on an empty stream), record true lengths, encode every
sample, and finally increment `tgt_maxlen`. -/
def loadDataFromStream (vs0 : Vocabs) (frozen : Bool) (lines : List (List Char)) :
    Except PyError LoadedData := do
  let raw ← readRawSamples lines
  let srcMax ← pyMax (raw.map (fun s => s.1.length))
  let tgtMax ← pyMax (raw.map (fun s => s.2.length))
  let enc := encodeSamples frozen srcMax tgtMax vs0 raw
  return { vocabs := enc.2
           raw_samples := raw
           samples := enc.1
           src_maxlen := srcMax
           tgt_maxlen := tgtMax + 1
           src_seqlen := raw.map (fun s => s.1.length)
           tgt_seqlen := raw.map (fun s => s.2.length + 1) }

/-- `Dataset.__init__(cfg, stream)` up to the loaded state: fresh
(possibly aliased) vocabularies with the reserved constants, then a
growing-vocabulary load. -/
def mkDataset (share : Bool) (lines : List (List Char)) : Except PyError LoadedData :=
  loadDataFromStream (initVocabs share) false lines

/-- `Dataset.tgt_reverse_lookup(idx)`: the cached inverse map
`{i: ch for ch, i in tgt_vocab.items()}` (later items overwrite
earlier ones on a duplicated id, hence the scan of the reversed list),
with `.get(idx, '<UNK>')`. -/
def ilookup (i : Nat) : Vocab → Option Tok
  | [] => none
  | (t, j) :: rest => if j = i then some t else ilookup i rest

/-- Reverse lookup on the target vocabulary, for an inverse map built
from the vocabulary state `v`. -/
def tgtReverseLookup (v : Vocab) (idx : Nat) : Tok :=
  (ilookup idx v.reverse).getD "<UNK>".data

/-- One entry of a sequential batch before the final unzip/stack: the
tuple `(src_row, tgt_row, src_len, tgt_len)` built by
`zip(src, tgt, src_len, tgt_len)` in `batched_iter`. -/
abbrev BatchEntry := (List Nat × List Nat) × Nat × Nat

/-- The batch count of `batched_iter`: `len(samples) // batch_size`,
plus one if that leaves a remainder. -/
def numBatches (n bs : Nat) : Nat :=
  if n / bs * bs < n then n / bs + 1 else n / bs

/-- Python slice `l[start:stop]` (for `start ≤ stop`; an overlong
`stop` truncates at the end of the list). -/
def pySlice (start stop : Nat) (l : List α) : List α :=
  (l.drop start).take (stop - start)

/-- `Dataset.batched_iter(batch_size)`: `len(samples) // batch_size`
batches plus one more when a remainder exists; batch `i` is the slice
`[i*bs, min((i+1)*bs, N))` of the samples together with the true
lengths at the same indices, sorted by descending true source length
(`sorted(batch, key=lambda x: -x[2])`, a stable sort).  The subsequent
unzip into four parallel tuples and the tensor/transpose/device steps
are bijective repackaging and are not modelled.  For `batch_size = 0`
Python raises `ZeroDivisionError`; the model is only used with
`batch_size ≥ 1`. -/
def batchedIter (samples : List (List Nat × List Nat))
    (srcLen tgtLen : List Nat) (bs : Nat) : List (List BatchEntry) :=
  (List.range (numBatches samples.length bs)).map (fun i =>
    let start := i * bs
    let stop := min ((i + 1) * bs) samples.length
    ((pySlice start stop samples).zip
      ((pySlice start stop srcLen).zip (pySlice start stop tgtLen))).mergeSort
      (fun a b => decide (b.2.1 ≤ a.2.1)))

/-- `Dataset.get_random_batch(batch_size)` with the randomness
externalized: `idx` is the list drawn by
`np.random.choice(range(len(samples)), batch_size)` (indices in
`[0, N)`, drawn with replacement).  The drawn indices are sorted by
descending true source length (`sorted(idx, key=lambda i:
-src_seqlen[i])`, stable), then the four parallel lists are gathered
with the sorted indices.  Tensor/transpose/device steps are not
modelled.  Out-of-range indices (impossible for `np.random.choice`
output) are given default values. -/
def getRandomBatch (samples : List (List Nat × List Nat))
    (srcLen tgtLen : List Nat) (idx : List Nat) :
    List (List Nat) × List (List Nat) × List Nat × List Nat :=
  let idx2 := idx.mergeSort (fun i j => decide (srcLen.getD j 0 ≤ srcLen.getD i 0))
  (idx2.map (fun i => (samples.getD i ([], [])).1),
   idx2.map (fun i => (samples.getD i ([], [])).2),
   idx2.map (fun i => srcLen.getD i 0),
   idx2.map (fun i => tgtLen.getD i 0))

/-- Parse one line of the `InferenceDataset` vocabulary file:
`src, tgt = l.rstrip("\n").split("\t")` — exactly the same
two-field unpacking as the training-line parse, without the
per-field tokenization. -/
def parseVocabLine (l : List Char) : Except PyError (Tok × Tok) :=
  match splitSep '\t' (rstripNl l) with
  | [a, b] => .ok (a, b)
  | parts =>
    .error (.valueError
      (if parts.length < 2 then "not enough values to unpack (expected 2, got 1)"
       else "too many values to unpack (expected 2)"))

/-- Python dict assignment `d[k] = v`: overwrite in place if the key
exists, else append. -/
def dictInsert (k v : Tok) : List (Tok × Tok) → List (Tok × Tok)
  | [] => [(k, v)]
  | (k', v') :: rest =>
    if k' = k then (k, v) :: rest else (k', v') :: dictInsert k v rest

/-- `InferenceDataset.load_src_vocab`: build the source-vocabulary
surrogate dict line by line, aborting with the first malformed line's
error. -/
def loadSrcVocab : List (List Char) → Except PyError (List (Tok × Tok))
  | [] => .ok []
  | l :: ls => do
    let p ← parseVocabLine l
    let rest ← loadSrcVocab ls
    return dictInsert p.1 p.2 rest

/-- `InferenceDataset.load_data_from_stream`: strip each raw line (no
tab-splitting, no tokenization), sort `enumerate(raw_samples)` once by
descending character length (stable), and unpack into
`(len_mapping, samples)`.  On an empty stream `zip(*[])` unpacks zero
values into two variables and raises a `ValueError`. -/
def loadInference (lines : List (List Char)) :
    Except PyError (List Nat × List (List Char)) :=
  let raw := lines.map rstripNl
  let sortedPairs :=
    raw.enum.mergeSort (fun a b => decide (b.2.length ≤ a.2.length))
  match sortedPairs with
  | [] => .error (.valueError "not enough values to unpack (expected 2, got 0)")
  | _ => .ok (sortedPairs.map Prod.fst, sortedPairs.map Prod.snd)

/-! ### Basic facts about the line parser -/

theorem splitSep_ne_nil (sep : Char) (l : List Char) : splitSep sep l ≠ [] := by
  induction l with
  | nil => simp [splitSep]
  | cons c cs ih =>
    simp only [splitSep]
    split
    · simp
    · cases h : splitSep sep cs with
      | nil => simp
      | cons t ts => simp

theorem splitSep_length (sep : Char) (l : List Char) :
    (splitSep sep l).length = l.count sep + 1 := by
  induction l with
  | nil => simp [splitSep]
  | cons c cs ih =>
    by_cases hc : c = sep
    · subst hc
      simp only [splitSep, if_pos rfl, List.length_cons, List.count_cons, beq_self_eq_true,
        if_pos]
      omega
    · cases h : splitSep sep cs with
      | nil => exact absurd h (splitSep_ne_nil sep cs)
      | cons t ts =>
        rw [h] at ih
        simp only [splitSep, if_neg hc, h, List.length_cons] at ih ⊢
        rw [List.count_cons]
        simp only [beq_iff_eq, if_neg hc]
        omega

theorem count_dropWhile {p : Char → Bool} {sep : Char} (hp : p sep = false) :
    ∀ l : List Char, (l.dropWhile p).count sep = l.count sep := by
  intro l
  induction l with
  | nil => rfl
  | cons c cs ih =>
    by_cases hc : p c
    · have hne : c ≠ sep := fun he => by
        rw [he, hp] at hc
        exact Bool.false_ne_true hc
      rw [List.dropWhile_cons_of_pos hc, ih, List.count_cons]
      simp [hne]
    · rw [List.dropWhile_cons_of_neg hc]

theorem count_rstripNl {sep : Char} (hsep : sep ≠ '\n') (l : List Char) :
    (rstripNl l).count sep = l.count sep := by
  unfold rstripNl
  rw [List.count_reverse]
  rw [count_dropWhile (by simp [hsep]), List.count_reverse]

theorem parseLine_isOk_iff (l : List Char) :
    (parseLine l).isOk = true ↔ l.count '\t' = 1 := by
  have hlen := splitSep_length '\t' (rstripNl l)
  have hcnt := @count_rstripNl '\t' (by decide) l
  rw [hcnt] at hlen
  unfold parseLine
  rcases hxs : splitSep '\t' (rstripNl l) with _ | ⟨a, _ | ⟨b, _ | ⟨c, rest⟩⟩⟩
  · rw [hxs] at hlen
    simp only [List.length_nil] at hlen
    omega
  · rw [hxs] at hlen
    simp only [List.length_cons, List.length_nil] at hlen
    simp only [Except.isOk, Except.toBool]
    constructor
    · intro h; exact absurd h (by simp)
    · intro h; omega
  · rw [hxs] at hlen
    simp only [List.length_cons, List.length_nil] at hlen
    simp only [Except.isOk, Except.toBool]
    constructor
    · intro _; omega
    · intro _; trivial
  · rw [hxs] at hlen
    simp only [List.length_cons, List.length_nil] at hlen
    simp only [Except.isOk, Except.toBool]
    constructor
    · intro h; exact absurd h (by simp)
    · intro h; omega

theorem parseVocabLine_isOk_iff (l : List Char) :
    (parseVocabLine l).isOk = true ↔ l.count '\t' = 1 := by
  have hlen := splitSep_length '\t' (rstripNl l)
  have hcnt := @count_rstripNl '\t' (by decide) l
  rw [hcnt] at hlen
  unfold parseVocabLine
  rcases hxs : splitSep '\t' (rstripNl l) with _ | ⟨a, _ | ⟨b, _ | ⟨c, rest⟩⟩⟩
  · rw [hxs] at hlen
    simp only [List.length_nil] at hlen
    omega
  · rw [hxs] at hlen
    simp only [List.length_cons, List.length_nil] at hlen
    simp only [Except.isOk, Except.toBool]
    constructor
    · intro h; exact absurd h (by simp)
    · intro h; omega
  · rw [hxs] at hlen
    simp only [List.length_cons, List.length_nil] at hlen
    simp only [Except.isOk, Except.toBool]
    constructor
    · intro _; omega
    · intro _; trivial
  · rw [hxs] at hlen
    simp only [List.length_cons, List.length_nil] at hlen
    simp only [Except.isOk, Except.toBool]
    constructor
    · intro h; exact absurd h (by simp)
    · intro h; omega

theorem readRawSamples_isOk_iff (lines : List (List Char)) :
    (readRawSamples lines).isOk = true ↔ ∀ m ∈ lines, m.count '\t' = 1 := by
  induction lines with
  | nil => simp [readRawSamples, Except.isOk, Except.toBool]
  | cons l ls ih =>
    simp only [readRawSamples, List.mem_cons, bind, Except.bind]
    cases hp : parseLine l with
    | error e =>
      have : ¬ (parseLine l).isOk = true := by simp [hp, Except.isOk, Except.toBool]
      rw [parseLine_isOk_iff] at this
      simp [Except.isOk, Except.toBool, this]
    | ok p =>
      have hok : (parseLine l).isOk = true := by simp [hp, Except.isOk, Except.toBool]
      rw [parseLine_isOk_iff] at hok
      cases hr : readRawSamples ls with
      | error e =>
        rw [hr] at ih
        simp only [Except.isOk, Except.toBool] at ih
        simp only [Except.isOk, Except.toBool]
        constructor
        · intro h; exact absurd h (by simp)
        · intro h
          exact absurd (fun m hm => h m (Or.inr hm)) (by simpa using ih)
      | ok rest =>
        rw [hr] at ih
        simp only [Except.isOk, Except.toBool] at ih ⊢
        simp only [pure, Except.pure]
        constructor
        · intro _ m hm
          rcases hm with hm | hm
          · exact hm ▸ hok
          · exact (ih.mp trivial) m hm
        · intro _; trivial

theorem loadSrcVocab_isOk_iff (lines : List (List Char)) :
    (loadSrcVocab lines).isOk = true ↔ ∀ m ∈ lines, m.count '\t' = 1 := by
  induction lines with
  | nil => simp [loadSrcVocab, Except.isOk, Except.toBool]
  | cons l ls ih =>
    simp only [loadSrcVocab, List.mem_cons, bind, Except.bind]
    cases hp : parseVocabLine l with
    | error e =>
      have : ¬ (parseVocabLine l).isOk = true := by simp [hp, Except.isOk, Except.toBool]
      rw [parseVocabLine_isOk_iff] at this
      simp [Except.isOk, Except.toBool, this]
    | ok p =>
      have hok : (parseVocabLine l).isOk = true := by simp [hp, Except.isOk, Except.toBool]
      rw [parseVocabLine_isOk_iff] at hok
      cases hr : loadSrcVocab ls with
      | error e =>
        rw [hr] at ih
        simp only [Except.isOk, Except.toBool] at ih
        simp only [Except.isOk, Except.toBool]
        constructor
        · intro h; exact absurd h (by simp)
        · intro h
          exact absurd (fun m hm => h m (Or.inr hm)) (by simpa using ih)
      | ok rest =>
        rw [hr] at ih
        simp only [Except.isOk, Except.toBool] at ih ⊢
        simp only [pure, Except.pure]
        constructor
        · intro _ m hm
          rcases hm with hm | hm
          · exact hm ▸ hok
          · exact (ih.mp trivial) m hm
        · intro _; trivial

/-- Claim C10: a training/validation line parses successfully if and only
if it contains exactly one tab character (a line with two or more tabs
also fails the two-field unpacking and aborts the load), and the same
exactly-one-tab requirement governs every line of the InferenceDataset
vocabulary file. -/
theorem claim_C10 (l : List Char) (lines vlines : List (List Char)) :
    ((parseLine l).isOk = true ↔ l.count '\t' = 1) ∧
    ((parseVocabLine l).isOk = true ↔ l.count '\t' = 1) ∧
    ((readRawSamples lines).isOk = true ↔ ∀ m ∈ lines, m.count '\t' = 1) ∧
    ((loadSrcVocab vlines).isOk = true ↔ ∀ m ∈ vlines, m.count '\t' = 1) :=
  ⟨parseLine_isOk_iff l, parseVocabLine_isOk_iff l,
   readRawSamples_isOk_iff lines, loadSrcVocab_isOk_iff vlines⟩

/-! ### Abort behaviour of the loader -/

theorem parseLine_noTab {l : List Char} (h : l.count '\t' = 0) :
    parseLine l = .error (.valueError "not enough values to unpack (expected 2, got 1)") := by
  have hlen := splitSep_length '\t' (rstripNl l)
  rw [count_rstripNl (by decide) l, h] at hlen
  unfold parseLine
  rcases hxs : splitSep '\t' (rstripNl l) with _ | ⟨a, _ | ⟨b, rest⟩⟩
  · exact absurd hxs (splitSep_ne_nil _ _)
  · rfl
  · rw [hxs] at hlen
    simp only [List.length_cons] at hlen
    omega

theorem readRawSamples_firstError {e : PyError} :
    ∀ (pre : List (List Char)) (l : List Char) (post : List (List Char)),
    (∀ p ∈ pre, p.count '\t' = 1) → parseLine l = .error e →
    readRawSamples (pre ++ l :: post) = .error e := by
  intro pre
  induction pre with
  | nil =>
    intro l post _ he
    simp only [List.nil_append, readRawSamples, he, bind, Except.bind]
  | cons p pre ih =>
    intro l post hpre he
    have hp : (parseLine p).isOk = true := (parseLine_isOk_iff p).mpr (hpre p (by simp))
    rcases hparse : parseLine p with e' | v
    · rw [hparse] at hp
      simp [Except.isOk, Except.toBool] at hp
    · rw [List.cons_append]
      simp only [readRawSamples, hparse, bind, Except.bind]
      rw [ih l post (fun q hq => hpre q (List.mem_cons_of_mem p hq)) he]

/-- Claim C3: a training/validation input stream containing a line with
no tab separator fails to load with the unpacking error raised at the
first such line (the result is determined there, whatever lines
follow), the load is aborted, and no dataset is produced. -/
theorem claim_C3 (vs0 : Vocabs) (frozen : Bool) (pre : List (List Char)) (l : List Char)
    (post : List (List Char)) (hpre : ∀ p ∈ pre, p.count '\t' = 1)
    (hl : l.count '\t' = 0) :
    loadDataFromStream vs0 frozen (pre ++ l :: post) =
      .error (.valueError "not enough values to unpack (expected 2, got 1)") ∧
    ∀ d, loadDataFromStream vs0 frozen (pre ++ l :: post) ≠ .ok d := by
  have h1 := readRawSamples_firstError pre l post hpre (parseLine_noTab hl)
  have heq : loadDataFromStream vs0 frozen (pre ++ l :: post) =
      .error (.valueError "not enough values to unpack (expected 2, got 1)") := by
    unfold loadDataFromStream
    simp only [h1, bind, Except.bind]
  exact ⟨heq, fun d hd => by rw [heq] at hd; exact Except.noConfusion hd⟩

/-- Witness for C3: the stream `["a\tb", "oops", "x\ty"]` fails with
the unpack error even though a well-formed line follows the malformed
one. -/
theorem claim_C3_witness :
    (∀ p ∈ ["a\tb".data], List.count '\t' p = 1) ∧
    List.count '\t' "oops".data = 0 ∧
    loadDataFromStream (initVocabs false) false
        (["a\tb".data] ++ "oops".data :: ["x\ty".data]) =
      .error (.valueError "not enough values to unpack (expected 2, got 1)") :=
  ⟨by decide, by decide,
   (claim_C3 (initVocabs false) false ["a\tb".data] "oops".data ["x\ty".data]
     (by decide) (by decide)).1⟩

/-- Claim C2 (amended): loading from the empty stream always fails —
no zero-length dataset is ever produced — but the failure is the
Python built-in `ValueError` raised by `max()` over the empty sequence
of source lengths, not a dedicated `EmptyDatasetError`. -/
theorem claim_C2 (vs0 : Vocabs) (frozen : Bool) :
    loadDataFromStream vs0 frozen [] = .error (.valueError "max() arg is an empty sequence") ∧
    ∀ d, loadDataFromStream vs0 frozen [] ≠ .ok d := by
  have heq : loadDataFromStream vs0 frozen [] =
      .error (.valueError "max() arg is an empty sequence") := rfl
  exact ⟨heq, fun d hd => by rw [heq] at hd; exact Except.noConfusion hd⟩

/-- Counterexample for C2 as stated: on the empty stream (either
vocabulary-sharing configuration) the dataset constructor fails with
the generic `max() arg is an empty sequence` `ValueError` — exactly
the "obscure crash from taking the max of an empty sequence" — and
that error is not the dedicated `EmptyDatasetError` the claim names. -/
theorem claim_C2_counterexample :
    mkDataset false [] = .error (.valueError "max() arg is an empty sequence") ∧
    mkDataset true [] = .error (.valueError "max() arg is an empty sequence") ∧
    PyError.valueError "max() arg is an empty sequence" ≠ PyError.emptyDatasetError :=
  ⟨rfl, rfl, by decide⟩

/-! ### Shape of a successful load -/

theorem load_ok_elim {vs0 : Vocabs} {frozen : Bool} {lines : List (List Char)}
    {d : LoadedData} (h : loadDataFromStream vs0 frozen lines = .ok d) :
    ∃ raw srcMax tgtMax,
      readRawSamples lines = .ok raw ∧
      pyMax (raw.map (fun s => s.1.length)) = .ok srcMax ∧
      pyMax (raw.map (fun s => s.2.length)) = .ok tgtMax ∧
      d = { vocabs := (encodeSamples frozen srcMax tgtMax vs0 raw).2
            raw_samples := raw
            samples := (encodeSamples frozen srcMax tgtMax vs0 raw).1
            src_maxlen := srcMax
            tgt_maxlen := tgtMax + 1
            src_seqlen := raw.map (fun s => s.1.length)
            tgt_seqlen := raw.map (fun s => s.2.length + 1) } := by
  unfold loadDataFromStream at h
  rcases hraw : readRawSamples lines with e | raw <;> rw [hraw] at h
  · simp [bind, Except.bind] at h
  · simp only [bind, Except.bind] at h
    rcases hsm : pyMax (raw.map (fun s => s.1.length)) with e | srcMax <;> rw [hsm] at h
    · simp at h
    · rcases htm : pyMax (raw.map (fun s => s.2.length)) with e | tgtMax <;> rw [htm] at h
      · simp at h
      · simp only [pure, Except.pure, Except.ok.injEq] at h
        exact ⟨raw, srcMax, tgtMax, rfl, hsm, htm, h.symm⟩

theorem foldl_max_le_self (xs : List Nat) (a : Nat) : a ≤ xs.foldl Nat.max a := by
  induction xs generalizing a with
  | nil => exact Nat.le_refl a
  | cons x xs ih => exact Nat.le_trans (Nat.le_max_left a x) (ih (Nat.max a x))

theorem foldl_max_le_of_mem {x : Nat} {xs : List Nat} (a : Nat) (h : x ∈ xs) :
    x ≤ xs.foldl Nat.max a := by
  induction xs generalizing a with
  | nil => cases h
  | cons y ys ih =>
    rcases List.mem_cons.mp h with h | h
    · subst h
      exact Nat.le_trans (Nat.le_max_right a x) (foldl_max_le_self ys (Nat.max a x))
    · exact ih (Nat.max a y) h

theorem foldl_max_mem (xs : List Nat) (a : Nat) :
    xs.foldl Nat.max a = a ∨ xs.foldl Nat.max a ∈ xs := by
  induction xs generalizing a with
  | nil => exact Or.inl rfl
  | cons x xs ih =>
    rcases ih (Nat.max a x) with h | h
    · rw [List.foldl_cons, h]
      rcases Nat.le_total a x with hax | hax
      · have hmax : Nat.max a x = x := Nat.max_eq_right hax
        rw [hmax]
        exact Or.inr (List.mem_cons_self x xs)
      · have hmax : Nat.max a x = a := Nat.max_eq_left hax
        rw [hmax]
        exact Or.inl rfl
    · exact Or.inr (List.mem_cons_of_mem x h)

theorem pyMax_ok {l : List Nat} {m : Nat} (h : pyMax l = .ok m) :
    (∀ x ∈ l, x ≤ m) ∧ m ∈ l := by
  cases l with
  | nil => exact absurd h (by simp [pyMax])
  | cons x xs =>
    have hm : m = xs.foldl Nat.max x := by
      simpa [pyMax] using h.symm
    subst hm
    constructor
    · intro y hy
      rcases List.mem_cons.mp hy with hy | hy
      · exact hy ▸ foldl_max_le_self xs y
      · exact foldl_max_le_of_mem x hy
    · rcases foldl_max_mem xs x with h | h
      · rw [h]
        exact List.mem_cons_self x xs
      · exact List.mem_cons_of_mem x h

theorem encodeSeq_length (step : Vocabs → Tok → Nat × Vocabs) :
    ∀ (ts : List Tok) (vs : Vocabs), (encodeSeq step vs ts).1.length = ts.length := by
  intro ts
  induction ts with
  | nil => intro vs; rfl
  | cons t ts ih => intro vs; simp [encodeSeq, ih]

theorem encodeSamples_length (frozen : Bool) (sM tM : Nat) :
    ∀ (raw : List (List Tok × List Tok)) (vs : Vocabs),
    (encodeSamples frozen sM tM vs raw).1.length = raw.length := by
  intro raw
  induction raw with
  | nil => intro vs; rfl
  | cons hd rest ih =>
    intro vs
    obtain ⟨src, tgt⟩ := hd
    simp [encodeSamples, ih]

theorem encodeSamples_row_lengths (frozen : Bool) (sM tM : Nat) :
    ∀ (raw : List (List Tok × List Tok)) (vs : Vocabs),
    (∀ s ∈ raw, s.1.length ≤ sM ∧ s.2.length ≤ tM) →
    ∀ p ∈ (encodeSamples frozen sM tM vs raw).1,
      p.1.length = sM ∧ p.2.length = tM + 1 := by
  intro raw
  induction raw with
  | nil => intro vs _ p hp; simp [encodeSamples] at hp
  | cons hd rest ih =>
    intro vs hb p hp
    obtain ⟨src, tgt⟩ := hd
    simp only [encodeSamples, List.mem_cons] at hp
    rcases hp with hp | hp
    · have h1 : src.length ≤ sM := (hb (src, tgt) (List.mem_cons_self _ _)).1
      have h2 : tgt.length ≤ tM := (hb (src, tgt) (List.mem_cons_self _ _)).2
      subst hp
      constructor
      · simp only [List.length_append, List.length_replicate, encodeSeq_length]
        omega
      · simp only [List.length_append, List.length_cons, List.length_replicate,
          encodeSeq_length]
        omega
    · exact ih _ (fun s hs => hb s (List.mem_cons_of_mem _ hs)) p hp

/-- Claim C1: after a successful growing-vocabulary load, every encoded
source row has length exactly `src_maxlen`, which is the maximum of the
source token counts, and every encoded target row has length exactly
`tgt_maxlen`, which is the maximum of the target token counts plus one
(the increment applied only after the encoding loop). -/
theorem claim_C1 (share : Bool) (lines : List (List Char)) (d : LoadedData)
    (h : mkDataset share lines = .ok d) :
    (∀ p ∈ d.samples, p.1.length = d.src_maxlen ∧ p.2.length = d.tgt_maxlen) ∧
    (d.src_maxlen ∈ d.raw_samples.map (fun s => s.1.length) ∧
      ∀ x ∈ d.raw_samples.map (fun s => s.1.length), x ≤ d.src_maxlen) ∧
    (∃ m, m ∈ d.raw_samples.map (fun s => s.2.length) ∧
      (∀ x ∈ d.raw_samples.map (fun s => s.2.length), x ≤ m) ∧
      d.tgt_maxlen = m + 1) := by
  obtain ⟨raw, sM, tM, hraw, hsm, htm, hd⟩ := load_ok_elim h
  subst hd
  obtain ⟨hsb, hsmem⟩ := pyMax_ok hsm
  obtain ⟨htb, htmem⟩ := pyMax_ok htm
  refine ⟨?_, ⟨hsmem, hsb⟩, ⟨tM, htmem, htb, rfl⟩⟩
  intro p hp
  refine encodeSamples_row_lengths false sM tM raw _ ?_ p hp
  intro s hs
  exact ⟨hsb _ (List.mem_map.mpr ⟨s, hs, rfl⟩), htb _ (List.mem_map.mpr ⟨s, hs, rfl⟩)⟩

/-- Witness for C1 at the stream `["a b\tx", "c\ty z w"]`. -/
theorem claim_C1_witness :
    ∃ d, mkDataset false ["a b\tx".data, "c\ty z w".data] = .ok d ∧
      ((∀ p ∈ d.samples, p.1.length = d.src_maxlen ∧ p.2.length = d.tgt_maxlen) ∧
       (d.src_maxlen ∈ d.raw_samples.map (fun s => s.1.length) ∧
         ∀ x ∈ d.raw_samples.map (fun s => s.1.length), x ≤ d.src_maxlen) ∧
       (∃ m, m ∈ d.raw_samples.map (fun s => s.2.length) ∧
         (∀ x ∈ d.raw_samples.map (fun s => s.2.length), x ≤ m) ∧
         d.tgt_maxlen = m + 1)) :=
  ⟨_, rfl, claim_C1 false ["a b\tx".data, "c\ty z w".data] _ rfl⟩

/-! ### Vocabulary aliasing and growth -/

theorem vlookup_append_self {v : Vocab} {t : Tok} (n : Nat) (hv : vlookup t v = none) :
    vlookup t (v ++ [(t, n)]) = some n := by
  induction v with
  | nil => simp [vlookup]
  | cons p rest ih =>
    obtain ⟨k, i⟩ := p
    by_cases hk : k = t
    · rw [show vlookup t ((k, i) :: rest) = some i from by simp [vlookup, hk]] at hv
      exact Option.noConfusion hv
    · rw [show vlookup t ((k, i) :: rest) = vlookup t rest from by simp [vlookup, hk]] at hv
      rw [List.cons_append]
      rw [show vlookup t ((k, i) :: (rest ++ [(t, n)])) = vlookup t (rest ++ [(t, n)]) from by
        simp [vlookup, hk]]
      exact ih hv

theorem lookupGrow_stable (v : Vocab) (t : Tok) :
    lookupGrow (lookupGrow v t).2 t = lookupGrow v t := by
  cases hv : vlookup t v with
  | some i =>
    have h1 : lookupGrow v t = (i, v) := by
      unfold lookupGrow
      rw [hv]
    rw [h1]
    exact h1
  | none =>
    have h1 : lookupGrow v t = (v.length, v ++ [(t, v.length)]) := by
      unfold lookupGrow
      rw [hv]
    have h2 := vlookup_append_self v.length hv
    rw [h1]
    show lookupGrow (v ++ [(t, v.length)]) t = (v.length, v ++ [(t, v.length)])
    unfold lookupGrow
    rw [h2]

theorem isShared_srcStep (frozen : Bool) (vs : Vocabs) (t : Tok) :
    ((srcStep frozen vs t).2).isShared = vs.isShared := by
  unfold srcStep
  split
  · rfl
  · cases vs <;> rfl

theorem isShared_tgtStep (frozen : Bool) (vs : Vocabs) (t : Tok) :
    ((tgtStep frozen vs t).2).isShared = vs.isShared := by
  unfold tgtStep
  split
  · rfl
  · cases vs <;> rfl

theorem isShared_encodeSeq (step : Vocabs → Tok → Nat × Vocabs)
    (hstep : ∀ vs t, ((step vs t).2).isShared = vs.isShared) :
    ∀ (ts : List Tok) (vs : Vocabs),
    ((encodeSeq step vs ts).2).isShared = vs.isShared := by
  intro ts
  induction ts with
  | nil => intro vs; rfl
  | cons t ts ih =>
    intro vs
    simp only [encodeSeq]
    rw [ih, hstep]

theorem isShared_encodeSamples (frozen : Bool) (sM tM : Nat) :
    ∀ (raw : List (List Tok × List Tok)) (vs : Vocabs),
    ((encodeSamples frozen sM tM vs raw).2).isShared = vs.isShared := by
  intro raw
  induction raw with
  | nil => intro vs; rfl
  | cons hd rest ih =>
    intro hd_vs
    obtain ⟨src, tgt⟩ := hd
    simp only [encodeSamples]
    rw [ih, isShared_encodeSeq _ (isShared_tgtStep frozen),
      isShared_encodeSeq _ (isShared_srcStep frozen)]

theorem shared_views (vs : Vocabs) (h : vs.isShared = true) :
    vs.srcView = vs.tgtView := by
  cases vs with
  | shared v => rfl
  | separate s g => exact absurd h (by simp [Vocabs.isShared])

/-- Claim C6: with `share_vocab=True` the source and target
vocabularies are one aliased mapping: after loading, any token looks
up to the same id through either role, and during loading an insertion
through one role is immediately visible through the other role (the
other role's growing lookup returns the same id and changes nothing). -/
theorem claim_C6 :
    (∀ (lines : List (List Char)) (d : LoadedData), mkDataset true lines = .ok d →
      ∀ t : Tok, vlookup t d.vocabs.srcView = vlookup t d.vocabs.tgtView ∧
        lookupFrozen d.vocabs.srcView t = lookupFrozen d.vocabs.tgtView t) ∧
    (∀ (v : Vocab) (t : Tok),
      Vocabs.tgtGrow (Vocabs.srcGrow (.shared v) t).2 t =
        ((Vocabs.srcGrow (.shared v) t).1, (Vocabs.srcGrow (.shared v) t).2)) ∧
    (∀ (v : Vocab) (t : Tok),
      Vocabs.srcGrow (Vocabs.tgtGrow (.shared v) t).2 t =
        ((Vocabs.tgtGrow (.shared v) t).1, (Vocabs.tgtGrow (.shared v) t).2)) := by
  refine ⟨?_, ?_, ?_⟩
  · intro lines d h t
    obtain ⟨raw, sM, tM, hraw, hsm, htm, hd⟩ := load_ok_elim h
    have hv2 : d.vocabs = (encodeSamples false sM tM (initVocabs true) raw).2 := by
      rw [hd]
    have hsh : ((encodeSamples false sM tM (initVocabs true) raw).2).isShared = true := by
      rw [isShared_encodeSamples]
      rfl
    have hv := shared_views _ hsh
    rw [hv2, hv]
    exact ⟨rfl, rfl⟩
  · intro v t
    simp only [Vocabs.srcGrow, Vocabs.tgtGrow, lookupGrow_stable]
  · intro v t
    simp only [Vocabs.srcGrow, Vocabs.tgtGrow, lookupGrow_stable]

/-- Witness for C6: a concrete shared-vocabulary load on which both
role views agree, plus the insertion-visibility law at a concrete
vocabulary state. -/
theorem claim_C6_witness :
    (∃ d, mkDataset true ["a b\ta c".data] = .ok d ∧
      vlookup "c".data d.vocabs.srcView = vlookup "c".data d.vocabs.tgtView ∧
      lookupFrozen d.vocabs.srcView "b".data = lookupFrozen d.vocabs.tgtView "b".data) ∧
    Vocabs.tgtGrow (Vocabs.srcGrow (.shared CONSTANTS) "q".data).2 "q".data =
      ((Vocabs.srcGrow (.shared CONSTANTS) "q".data).1,
       (Vocabs.srcGrow (.shared CONSTANTS) "q".data).2) :=
  ⟨⟨_, rfl, ((claim_C6.1 ["a b\ta c".data] _ rfl) "c".data).1,
    ((claim_C6.1 ["a b\ta c".data] _ rfl) "b".data).2⟩,
   claim_C6.2.1 CONSTANTS "q".data⟩

/-- Claim C7: growing-mode lookup assigns an unseen token the id equal
to the current mapping size and inserts it, returns the existing id
for a seen token, and hence data-derived ids follow first-encounter
order after the four reserved ids — on the two-line scenario the
source vocabulary maps a, b, c to 4, 5, 6 and the separate target
vocabulary maps x, y to 4, 5. -/
theorem claim_C7 :
    (∀ (v : Vocab) (t : Tok), vlookup t v = none →
      lookupGrow v t = (v.length, v ++ [(t, v.length)])) ∧
    (∀ (v : Vocab) (t : Tok) (i : Nat), vlookup t v = some i →
      lookupGrow v t = (i, v)) ∧
    (∃ d, mkDataset false ["a b c\tx y".data, "a b\tx".data] = .ok d ∧
      vlookup "a".data d.vocabs.srcView = some 4 ∧
      vlookup "b".data d.vocabs.srcView = some 5 ∧
      vlookup "c".data d.vocabs.srcView = some 6 ∧
      vlookup "x".data d.vocabs.tgtView = some 4 ∧
      vlookup "y".data d.vocabs.tgtView = some 5 ∧
      vlookup "PAD".data d.vocabs.srcView = some PAD ∧
      vlookup "SOS".data d.vocabs.srcView = some SOS ∧
      vlookup "EOS".data d.vocabs.srcView = some EOS ∧
      vlookup "UNK".data d.vocabs.srcView = some UNK ∧
      d.vocabs.srcView.length = 7 ∧ d.vocabs.tgtView.length = 6) := by
  refine ⟨?_, ?_, ?_⟩
  · intro v t hv
    unfold lookupGrow
    rw [hv]
  · intro v t i hv
    unfold lookupGrow
    rw [hv]
  · exact ⟨_, rfl, rfl, rfl, rfl, rfl, rfl, rfl, rfl, rfl, rfl, rfl, rfl⟩

/-- Witness for C7: the unseen token `q` is assigned id 4 (= size of
the reserved mapping) and inserted; the seen token `EOS` returns its
existing id 2 with no mutation. -/
theorem claim_C7_witness :
    vlookup "q".data CONSTANTS = none ∧
    lookupGrow CONSTANTS "q".data = (CONSTANTS.length, CONSTANTS ++ [("q".data, CONSTANTS.length)]) ∧
    vlookup "EOS".data CONSTANTS = some 2 ∧
    lookupGrow CONSTANTS "EOS".data = (2, CONSTANTS) :=
  ⟨by decide, claim_C7.1 CONSTANTS "q".data (by decide), by decide,
   claim_C7.2.1 CONSTANTS "EOS".data 2 (by decide)⟩

/-! ### InferenceDataset loading -/

theorem zip_fst_snd {α β : Type} : ∀ (l : List (α × β)),
    (l.map Prod.fst).zip (l.map Prod.snd) = l := by
  intro l
  induction l with
  | nil => rfl
  | cons p rest ih => simp [ih]

unseal List.merge List.mergeSort

/-- Claim C9 (amended to non-empty inputs): `InferenceDataset` stores
each full stripped line as one sample, sorts the samples once in
descending order of character length, and records the original line
index of each sorted sample; on three lines of lengths 5, 2, 8 the
samples come out in order (line3, line1, line2) with recorded original
indices (2, 0, 1). -/
theorem claim_C9 :
    (∀ lines : List (List Char), lines ≠ [] →
      ∃ lm smp, loadInference lines = .ok (lm, smp) ∧
        List.Pairwise (fun a b : List Char => b.length ≤ a.length) smp ∧
        lm.length = lines.length ∧ smp.length = lines.length ∧
        (∀ (p j : Nat), lm[p]? = some j →
          ∃ s, lines[j]? = some s ∧ smp[p]? = some (rstripNl s)) ∧
        (lm.zip smp).Perm (lines.map rstripNl).enum) ∧
    loadInference ["abcde".data, "xy".data, "12345678".data] =
      .ok ([2, 0, 1], ["12345678".data, "abcde".data, "xy".data]) := by
  constructor
  · intro lines hne
    have hperm := List.mergeSort_perm (lines.map rstripNl).enum
      (fun a b => decide (b.2.length ≤ a.2.length))
    have hsorted := @List.sorted_mergeSort _
      (fun a b : Nat × List Char => decide (b.2.length ≤ a.2.length))
      (fun a b c hab hbc => by
        simp only [decide_eq_true_eq] at hab hbc ⊢
        omega)
      (fun a b => by
        simp only [Bool.or_eq_true, decide_eq_true_eq]
        omega)
      (lines.map rstripNl).enum
    have hlen := @List.length_mergeSort _
      (fun a b : Nat × List Char => decide (b.2.length ≤ a.2.length))
      (lines.map rstripNl).enum
    simp only [loadInference]
    rcases hsp : (lines.map rstripNl).enum.mergeSort
        (fun a b => decide (b.2.length ≤ a.2.length)) with _ | ⟨hd, tl⟩
    · rw [hsp] at hlen
      simp only [List.length_nil, List.enum_length, List.length_map] at hlen
      exact absurd (List.length_eq_zero.mp hlen.symm) hne
    · rw [hsp] at hperm hsorted hlen
      refine ⟨(hd :: tl).map Prod.fst, (hd :: tl).map Prod.snd, rfl, ?_, ?_, ?_, ?_, ?_⟩
      · exact List.pairwise_map.mpr
          (hsorted.imp (fun h => by simpa using h))
      · rw [List.length_map, hlen]
        simp [List.enum_length]
      · rw [List.length_map, hlen]
        simp [List.enum_length]
      · intro p j hp
        rw [List.getElem?_map] at hp
        obtain ⟨pair, hpair, hfst⟩ := Option.map_eq_some'.mp hp
        have hmem : pair ∈ (lines.map rstripNl).enum :=
          hperm.mem_iff.mp (List.getElem?_mem hpair)
        have hraw : (lines.map rstripNl)[pair.1]? = some pair.2 :=
          List.mem_enum_iff_getElem?.mp hmem
        rw [List.getElem?_map] at hraw
        obtain ⟨s, hs, hrs⟩ := Option.map_eq_some'.mp hraw
        subst hfst
        refine ⟨s, hs, ?_⟩
        rw [List.getElem?_map, hpair]
        simp [hrs]
      · rw [zip_fst_snd]
        exact hperm
  · rfl

/-- Counterexample for C9 as stated ("for every inference input"): on
the empty input stream, `zip(*sorted(enumerate([]), ...))` unpacks
zero values into the two variables `len_mapping, samples`, so the
constructor raises a `ValueError` and no samples are stored at all. -/
theorem claim_C9_counterexample :
    loadInference [] = .error (.valueError "not enough values to unpack (expected 2, got 0)") :=
  rfl

/-- Witness for C9 at the two-line input `["ab", "xyz"]`. -/
theorem claim_C9_witness :
    ∃ lm smp, loadInference ["ab".data, "xyz".data] = .ok (lm, smp) ∧
      List.Pairwise (fun a b : List Char => b.length ≤ a.length) smp ∧
      lm.length = (["ab".data, "xyz".data] : List (List Char)).length ∧
      smp.length = (["ab".data, "xyz".data] : List (List Char)).length ∧
      (∀ (p j : Nat), lm[p]? = some j →
        ∃ s, (["ab".data, "xyz".data] : List (List Char))[j]? = some s ∧
          smp[p]? = some (rstripNl s)) ∧
      (lm.zip smp).Perm ((["ab".data, "xyz".data] : List (List Char)).map rstripNl).enum :=
  claim_C9.1 ["ab".data, "xyz".data] (by decide)

/-! ### Sequential batching -/

theorem numBatches_eq_ceil {bs : Nat} (hbs : 0 < bs) (n : Nat) :
    numBatches n bs = (n + bs - 1) / bs := by
  unfold numBatches
  have hmod := Nat.div_add_mod n bs
  have hr : n % bs < bs := Nat.mod_lt n hbs
  have hcomm : n / bs * bs = bs * (n / bs) := Nat.mul_comm _ _
  rcases Nat.eq_zero_or_pos (n % bs) with h0 | hpos
  · rw [if_neg (by omega)]
    have he : n + bs - 1 = bs * (n / bs) + (bs - 1) := by omega
    have hz : (bs - 1) / bs = 0 := Nat.div_eq_of_lt (by omega)
    rw [he, Nat.mul_add_div hbs, hz, Nat.add_zero]
  · rw [if_pos (by omega)]
    have hsucc : bs * (n / bs + 1) = bs * (n / bs) + bs := Nat.mul_succ bs (n / bs)
    have he : n + bs - 1 = bs * (n / bs + 1) + (n % bs - 1) := by omega
    have hz : (n % bs - 1) / bs = 0 := Nat.div_eq_of_lt (by omega)
    rw [he, Nat.mul_add_div hbs, hz, Nat.add_zero]

theorem pySlice_length {α : Type} (start stop : Nat) (l : List α) :
    (pySlice start stop l).length = min (stop - start) (l.length - start) := by
  simp [pySlice, List.length_take, List.length_drop]

theorem pySlice_flatten {α : Type} {bs : Nat} (hbs : 0 < bs) :
    ∀ (n : Nat) (l : List α), l.length = n →
    ((List.range (numBatches l.length bs)).map
      (fun i => pySlice (i * bs) (min ((i + 1) * bs) l.length) l)).flatten = l := by
  intro n
  induction n using Nat.strong_induction_on with
  | _ n ih =>
    intro l hl
    subst hl
    by_cases h0 : l.length = 0
    · have hnil : l = [] := List.length_eq_zero.mp h0
      subst hnil
      have hz : numBatches ([] : List α).length bs = 0 := by
        unfold numBatches
        simp [Nat.zero_div]
      rw [hz]
      rfl
    · by_cases hsmall : l.length ≤ bs
      · have hnb : numBatches l.length bs = 1 := by
          unfold numBatches
          rcases Nat.lt_or_ge l.length bs with hlt | hge
          · rw [Nat.div_eq_of_lt hlt]
            simp only [Nat.zero_mul]
            rw [if_pos (by omega)]
          · have hbe : l.length = bs := Nat.le_antisymm hsmall hge
            rw [hbe, Nat.div_self hbs]
            simp
        rw [hnb, show List.range 1 = [0] from by simp [List.range_succ]]
        simp only [List.map_cons, List.map_nil, List.flatten_cons,
          List.flatten_nil, List.append_nil]
        unfold pySlice
        have hmin : min ((0 + 1) * bs) l.length = l.length := by
          simp only [Nat.zero_add, Nat.one_mul]
          omega
        rw [hmin]
        simp only [Nat.zero_mul, List.drop_zero, Nat.sub_zero]
        exact List.take_length l
      · push_neg at hsmall
        have hnb : numBatches l.length bs = numBatches (l.length - bs) bs + 1 := by
          rw [numBatches_eq_ceil hbs, numBatches_eq_ceil hbs]
          have h1 : l.length + bs - 1 = (l.length - bs + bs - 1) + bs := by omega
          rw [h1, Nat.add_div_right _ hbs]
        rw [hnb, List.range_succ_eq_map]
        simp only [List.map_cons, List.flatten_cons, List.map_map]
        have hhead : pySlice (0 * bs) (min ((0 + 1) * bs) l.length) l = l.take bs := by
          unfold pySlice
          simp only [Nat.zero_mul, Nat.zero_add, Nat.one_mul, List.drop_zero, Nat.sub_zero]
          rw [Nat.min_eq_left (Nat.le_of_lt hsmall)]
        have htail : ∀ i : Nat,
            pySlice ((i + 1) * bs) (min ((i + 1 + 1) * bs) l.length) l =
            pySlice (i * bs) (min ((i + 1) * bs) (l.length - bs)) (l.drop bs) := by
          intro i
          unfold pySlice
          rw [List.drop_drop]
          have hs1 : (i + 1) * bs = i * bs + bs := Nat.succ_mul i bs
          have hs2 : (i + 1 + 1) * bs = (i + 1) * bs + bs := Nat.succ_mul (i + 1) bs
          have e1 : bs + i * bs = (i + 1) * bs := by omega
          have e2 : min ((i + 1 + 1) * bs) l.length - (i + 1) * bs =
              min ((i + 1) * bs) (l.length - bs) - i * bs := by omega
          rw [e1, e2]
        have hIH := ih (l.length - bs) (by omega) (l.drop bs) (List.length_drop bs l)
        rw [List.length_drop] at hIH
        have hmapeq :
            List.map ((fun i => pySlice (i * bs) (min ((i + 1) * bs) l.length) l) ∘ Nat.succ)
              (List.range (numBatches (l.length - bs) bs)) =
            List.map (fun i => pySlice (i * bs) (min ((i + 1) * bs) (l.length - bs)) (l.drop bs))
              (List.range (numBatches (l.length - bs) bs)) := by
          apply List.map_congr_left
          intro i hi
          exact htail i
        rw [hhead, hmapeq, hIH]
        exact List.take_append_drop bs l

theorem flatten_perm_ptwise {α β : Type} (is : List β) (f g : β → List α)
    (h : ∀ i ∈ is, (f i).Perm (g i)) :
    ((is.map f).flatten).Perm ((is.map g).flatten) := by
  induction is with
  | nil => exact List.Perm.refl _
  | cons i is ih =>
    simp only [List.map_cons, List.flatten_cons]
    exact (h i (List.mem_cons_self _ _)).append
      (ih (fun j hj => h j (List.mem_cons_of_mem _ hj)))

theorem map_fst_batch {samples : List (List Nat × List Nat)} {srcLen tgtLen : List Nat}
    (hs : srcLen.length = samples.length) (ht : tgtLen.length = samples.length)
    (start stop : Nat) :
    ((pySlice start stop samples).zip
      ((pySlice start stop srcLen).zip (pySlice start stop tgtLen))).map Prod.fst =
    pySlice start stop samples := by
  apply List.map_fst_zip
  rw [List.length_zip, pySlice_length, pySlice_length, pySlice_length, hs, ht]
  omega

/-- Claim C4: over any loaded dataset and any `batch_size ≥ 1`,
`batched_iter` emits exactly `ceil(N / batch_size)` batches, and the
multiset of samples over all emitted batches is exactly the full
sample list (each sample once; the last batch may be short). -/
theorem claim_C4 (vs0 : Vocabs) (frozen : Bool) (lines : List (List Char))
    (d : LoadedData) (bs : Nat) (h : loadDataFromStream vs0 frozen lines = .ok d)
    (hbs : 1 ≤ bs) :
    (batchedIter d.samples d.src_seqlen d.tgt_seqlen bs).length =
      (d.samples.length + bs - 1) / bs ∧
    ((batchedIter d.samples d.src_seqlen d.tgt_seqlen bs).flatten.map Prod.fst).Perm
      d.samples := by
  obtain ⟨raw, sM, tM, hraw, hsm, htm, hd⟩ := load_ok_elim h
  have hs : d.src_seqlen.length = d.samples.length := by
    rw [hd]
    simp [encodeSamples_length]
  have ht : d.tgt_seqlen.length = d.samples.length := by
    rw [hd]
    simp [encodeSamples_length]
  constructor
  · simp only [batchedIter, List.length_map, List.length_range]
    exact numBatches_eq_ceil hbs d.samples.length
  · rw [List.map_flatten]
    simp only [batchedIter, List.map_map]
    have hstep : ∀ i ∈ List.range (numBatches d.samples.length bs),
        ((List.map Prod.fst ∘ fun i =>
          ((pySlice (i * bs) (min ((i + 1) * bs) d.samples.length) d.samples).zip
            ((pySlice (i * bs) (min ((i + 1) * bs) d.samples.length) d.src_seqlen).zip
              (pySlice (i * bs) (min ((i + 1) * bs) d.samples.length) d.tgt_seqlen))).mergeSort
            (fun a b => decide (b.2.1 ≤ a.2.1))) i).Perm
        ((fun i => pySlice (i * bs) (min ((i + 1) * bs) d.samples.length) d.samples) i) := by
      intro i hi
      show (List.map Prod.fst _).Perm _
      refine ((List.mergeSort_perm _ _).map Prod.fst).trans ?_
      rw [map_fst_batch hs ht]
    refine (flatten_perm_ptwise _ _ _ hstep).trans ?_
    rw [pySlice_flatten (Nat.lt_of_lt_of_le Nat.zero_lt_one hbs) d.samples.length
      d.samples rfl]

/-- Witness for C4 at a three-sample dataset with `batch_size = 2`. -/
theorem claim_C4_witness :
    ∃ d, loadDataFromStream (initVocabs false) false
        ["a b\tx".data, "c\ty".data, "d e f\tz".data] = .ok d ∧
      ((batchedIter d.samples d.src_seqlen d.tgt_seqlen 2).length =
        (d.samples.length + 2 - 1) / 2 ∧
       ((batchedIter d.samples d.src_seqlen d.tgt_seqlen 2).flatten.map Prod.fst).Perm
        d.samples) :=
  ⟨_, rfl, claim_C4 (initVocabs false) false
    ["a b\tx".data, "c\ty".data, "d e f\tz".data] _ 2 rfl (by decide)⟩

/-! ### In-batch ordering and per-position alignment -/

theorem zip_getElem {α β : Type} :
    ∀ {as : List α} {bs : List β} {j : Nat} {p : α × β},
    (as.zip bs)[j]? = some p → as[j]? = some p.1 ∧ bs[j]? = some p.2 := by
  intro as
  induction as with
  | nil =>
    intro bs j p h
    simp at h
  | cons a as ih =>
    intro bs j p h
    cases bs with
    | nil => simp at h
    | cons b bs =>
      rw [List.zip_cons_cons] at h
      cases j with
      | zero =>
        rw [List.getElem?_cons_zero] at h
        obtain rfl : (a, b) = p := Option.some.inj h
        exact ⟨List.getElem?_cons_zero, List.getElem?_cons_zero⟩
      | succ j =>
        rw [List.getElem?_cons_succ] at h
        rw [List.getElem?_cons_succ, List.getElem?_cons_succ]
        exact ih h

theorem mem_zip_getElem {α β : Type} {as : List α} {bs : List β} {e : α × β}
    (h : e ∈ as.zip bs) :
    ∃ j : Nat, as[j]? = some e.1 ∧ bs[j]? = some e.2 := by
  obtain ⟨j, hj⟩ := List.mem_iff_getElem?.mp h
  exact ⟨j, (zip_getElem hj).1, (zip_getElem hj).2⟩

theorem pySlice_getElem {α : Type} {start stop j : Nat} {l : List α} {x : α}
    (h : (pySlice start stop l)[j]? = some x) : l[start + j]? = some x := by
  unfold pySlice at h
  rw [List.getElem?_take] at h
  split at h
  · rw [List.getElem?_drop] at h
    exact h
  · exact Option.noConfusion h

theorem batchedIter_sorted {samples : List (List Nat × List Nat)}
    {srcLen tgtLen : List Nat} {bs : Nat} (b : List BatchEntry)
    (hb : b ∈ batchedIter samples srcLen tgtLen bs) :
    List.Pairwise (fun a c : BatchEntry => c.2.1 ≤ a.2.1) b := by
  simp only [batchedIter, List.mem_map] at hb
  obtain ⟨i, hi, hbi⟩ := hb
  rw [← hbi]
  have hsort := @List.sorted_mergeSort _
    (fun a c : BatchEntry => decide (c.2.1 ≤ a.2.1))
    (fun a c e hac hce => by
      simp only [decide_eq_true_eq] at hac hce ⊢
      omega)
    (fun a c => by
      simp only [Bool.or_eq_true, decide_eq_true_eq]
      omega)
    ((pySlice (i * bs) (min ((i + 1) * bs) samples.length) samples).zip
      ((pySlice (i * bs) (min ((i + 1) * bs) samples.length) srcLen).zip
        (pySlice (i * bs) (min ((i + 1) * bs) samples.length) tgtLen)))
  exact hsort.imp (fun h => by simpa using h)

theorem batchedIter_aligned {samples : List (List Nat × List Nat)}
    {srcLen tgtLen : List Nat} {bs : Nat} (b : List BatchEntry)
    (hb : b ∈ batchedIter samples srcLen tgtLen bs) :
    ∀ e ∈ b, ∃ j : Nat, samples[j]? = some e.1 ∧
      srcLen[j]? = some e.2.1 ∧ tgtLen[j]? = some e.2.2 := by
  simp only [batchedIter, List.mem_map] at hb
  obtain ⟨i, hi, hbi⟩ := hb
  intro e he
  rw [← hbi] at he
  have he2 := (List.mergeSort_perm _ _).mem_iff.mp he
  obtain ⟨jl, h1, h2⟩ := mem_zip_getElem he2
  obtain ⟨h21, h22⟩ := zip_getElem h2
  exact ⟨i * bs + jl, pySlice_getElem h1, pySlice_getElem h21, pySlice_getElem h22⟩

theorem getRandomBatch_sorted (samples : List (List Nat × List Nat))
    (srcLen tgtLen : List Nat) (idx : List Nat) :
    List.Pairwise (fun a c : Nat => c ≤ a)
      (getRandomBatch samples srcLen tgtLen idx).2.2.1 := by
  simp only [getRandomBatch]
  refine List.pairwise_map.mpr ?_
  have hsort := @List.sorted_mergeSort _
    (fun i j : Nat => decide (srcLen.getD j 0 ≤ srcLen.getD i 0))
    (fun a c e hac hce => by
      simp only [decide_eq_true_eq] at hac hce ⊢
      omega)
    (fun a c => by
      simp only [Bool.or_eq_true, decide_eq_true_eq]
      omega)
    idx
  exact hsort.imp (fun h => by simpa using h)

theorem getRandomBatch_aligned {samples : List (List Nat × List Nat)}
    {srcLen tgtLen : List Nat} {idx : List Nat}
    (hidx : ∀ i ∈ idx, i < samples.length)
    (hs : srcLen.length = samples.length) (ht : tgtLen.length = samples.length)
    (p : Nat) (hp : p < idx.length) :
    ∃ (j : Nat) (sm : List Nat × List Nat), samples[j]? = some sm ∧
      (getRandomBatch samples srcLen tgtLen idx).1[p]? = some sm.1 ∧
      (getRandomBatch samples srcLen tgtLen idx).2.1[p]? = some sm.2 ∧
      (getRandomBatch samples srcLen tgtLen idx).2.2.1[p]? = srcLen[j]? ∧
      (getRandomBatch samples srcLen tgtLen idx).2.2.2[p]? = tgtLen[j]? := by
  simp only [getRandomBatch]
  have hlen2 : (idx.mergeSort
      (fun i j => decide (srcLen.getD j 0 ≤ srcLen.getD i 0))).length = idx.length :=
    List.length_mergeSort idx
  have hp2 : p < (idx.mergeSort
      (fun i j => decide (srcLen.getD j 0 ≤ srcLen.getD i 0))).length := by omega
  obtain ⟨j, hj⟩ : ∃ j, (idx.mergeSort
      (fun i j => decide (srcLen.getD j 0 ≤ srcLen.getD i 0)))[p]? = some j :=
    ⟨_, List.getElem?_eq_getElem hp2⟩
  have hjm : j ∈ idx := (List.mergeSort_perm idx _).mem_iff.mp (List.getElem?_mem hj)
  have hjlt : j < samples.length := hidx j hjm
  have hjs : j < srcLen.length := by omega
  have hjt : j < tgtLen.length := by omega
  refine ⟨j, samples.getD j ([], []), ?_, ?_, ?_, ?_, ?_⟩
  · rw [List.getElem?_eq_getElem hjlt, List.getD_eq_getElem _ _ hjlt]
  · rw [List.getElem?_map, hj]
    rfl
  · rw [List.getElem?_map, hj]
    rfl
  · rw [List.getElem?_map, hj]
    simp only [Option.map_some']
    rw [List.getD_eq_getElem _ _ hjs, List.getElem?_eq_getElem hjs]
  · rw [List.getElem?_map, hj]
    simp only [Option.map_some']
    rw [List.getD_eq_getElem _ _ hjt, List.getElem?_eq_getElem hjt]

/-- Claim C5: in every batch produced by `batched_iter` and in every
batch produced by `get_random_batch` (with its randomly drawn index
list made explicit), the source lengths are non-increasing across the
batch's sample axis, and the source row, target row, source length and
target length at any given batch position all come from the same
original sample index. -/
theorem claim_C5 :
    (∀ (vs0 : Vocabs) (frozen : Bool) (lines : List (List Char)) (d : LoadedData)
      (bs : Nat), loadDataFromStream vs0 frozen lines = .ok d → 1 ≤ bs →
      ∀ b ∈ batchedIter d.samples d.src_seqlen d.tgt_seqlen bs,
        List.Pairwise (fun a c : BatchEntry => c.2.1 ≤ a.2.1) b ∧
        ∀ e ∈ b, ∃ j : Nat, d.samples[j]? = some e.1 ∧
          d.src_seqlen[j]? = some e.2.1 ∧ d.tgt_seqlen[j]? = some e.2.2) ∧
    (∀ (vs0 : Vocabs) (frozen : Bool) (lines : List (List Char)) (d : LoadedData)
      (idx : List Nat), loadDataFromStream vs0 frozen lines = .ok d →
      (∀ i ∈ idx, i < d.samples.length) →
      List.Pairwise (fun a c : Nat => c ≤ a)
        (getRandomBatch d.samples d.src_seqlen d.tgt_seqlen idx).2.2.1 ∧
      ∀ (p : Nat), p < idx.length →
        ∃ (j : Nat) (sm : List Nat × List Nat), d.samples[j]? = some sm ∧
          (getRandomBatch d.samples d.src_seqlen d.tgt_seqlen idx).1[p]? = some sm.1 ∧
          (getRandomBatch d.samples d.src_seqlen d.tgt_seqlen idx).2.1[p]? = some sm.2 ∧
          (getRandomBatch d.samples d.src_seqlen d.tgt_seqlen idx).2.2.1[p]? =
            d.src_seqlen[j]? ∧
          (getRandomBatch d.samples d.src_seqlen d.tgt_seqlen idx).2.2.2[p]? =
            d.tgt_seqlen[j]?) := by
  constructor
  · intro vs0 frozen lines d bs h hbs b hb
    exact ⟨batchedIter_sorted b hb, batchedIter_aligned b hb⟩
  · intro vs0 frozen lines d idx h hidx
    obtain ⟨raw, sM, tM, hraw, hsm, htm, hd⟩ := load_ok_elim h
    have hs : d.src_seqlen.length = d.samples.length := by
      rw [hd]
      simp [encodeSamples_length]
    have ht : d.tgt_seqlen.length = d.samples.length := by
      rw [hd]
      simp [encodeSamples_length]
    exact ⟨getRandomBatch_sorted _ _ _ _,
      fun p hp => getRandomBatch_aligned hidx hs ht p hp⟩

/-- Witness for C5 at a two-sample dataset, `batch_size = 2` and the
drawn index list `[1, 0, 1]`. -/
theorem claim_C5_witness :
    ∃ d, loadDataFromStream (initVocabs false) false ["a b\tx".data, "c\ty".data] = .ok d ∧
      (∀ b ∈ batchedIter d.samples d.src_seqlen d.tgt_seqlen 2,
        List.Pairwise (fun a c : BatchEntry => c.2.1 ≤ a.2.1) b ∧
        ∀ e ∈ b, ∃ j : Nat, d.samples[j]? = some e.1 ∧
          d.src_seqlen[j]? = some e.2.1 ∧ d.tgt_seqlen[j]? = some e.2.2) ∧
      (List.Pairwise (fun a c : Nat => c ≤ a)
        (getRandomBatch d.samples d.src_seqlen d.tgt_seqlen [1, 0, 1]).2.2.1 ∧
      ∀ (p : Nat), p < ([1, 0, 1] : List Nat).length →
        ∃ (j : Nat) (sm : List Nat × List Nat), d.samples[j]? = some sm ∧
          (getRandomBatch d.samples d.src_seqlen d.tgt_seqlen [1, 0, 1]).1[p]? = some sm.1 ∧
          (getRandomBatch d.samples d.src_seqlen d.tgt_seqlen [1, 0, 1]).2.1[p]? = some sm.2 ∧
          (getRandomBatch d.samples d.src_seqlen d.tgt_seqlen [1, 0, 1]).2.2.1[p]? =
            d.src_seqlen[j]? ∧
          (getRandomBatch d.samples d.src_seqlen d.tgt_seqlen [1, 0, 1]).2.2.2[p]? =
            d.tgt_seqlen[j]?) :=
  ⟨_, rfl,
   claim_C5.1 (initVocabs false) false ["a b\tx".data, "c\ty".data] _ 2 rfl (by decide),
   claim_C5.2 (initVocabs false) false ["a b\tx".data, "c\ty".data] _ [1, 0, 1] rfl
     (by decide)⟩

/-! ### Vocabulary invariants and the reverse lookup -/

/-- Well-formedness of a growing-only vocabulary: the ids, in insertion
order, are exactly `0, 1, ..., size - 1`. -/
def VWF (v : Vocab) : Prop := v.map Prod.snd = List.range v.length

theorem vwf_constants : VWF CONSTANTS := by
  unfold VWF CONSTANTS
  decide

theorem vlookup_mem {t : Tok} {i : Nat} :
    ∀ {v : Vocab}, vlookup t v = some i → (t, i) ∈ v := by
  intro v
  induction v with
  | nil => intro h; exact absurd h (by simp [vlookup])
  | cons p rest ih =>
    intro h
    obtain ⟨k, n⟩ := p
    by_cases hk : k = t
    · subst hk
      rw [show vlookup k ((k, n) :: rest) = some n from by simp [vlookup]] at h
      obtain rfl := Option.some.inj h
      exact List.mem_cons_self _ _
    · rw [show vlookup t ((k, n) :: rest) = vlookup t rest from by simp [vlookup, hk]] at h
      exact List.mem_cons_of_mem _ (ih h)

theorem lookupGrow_wf {v : Vocab} (t : Tok) (hwf : VWF v) : VWF (lookupGrow v t).2 := by
  unfold lookupGrow
  cases hv : vlookup t v with
  | some i => exact hwf
  | none =>
    show VWF (v ++ [(t, v.length)])
    unfold VWF at hwf ⊢
    rw [List.map_append, List.length_append, hwf]
    simp [List.range_succ]

theorem lookupGrow_ext (v : Vocab) (t : Tok) : ∃ w, v ++ w = (lookupGrow v t).2 := by
  unfold lookupGrow
  cases hv : vlookup t v with
  | some i => exact ⟨[], List.append_nil v⟩
  | none => exact ⟨[(t, v.length)], rfl⟩

theorem lookupGrow_mem (v : Vocab) (t : Tok) :
    (t, (lookupGrow v t).1) ∈ (lookupGrow v t).2 := by
  unfold lookupGrow
  cases hv : vlookup t v with
  | some i => exact vlookup_mem hv
  | none =>
    show (t, v.length) ∈ v ++ [(t, v.length)]
    exact List.mem_append_right _ (List.mem_singleton.mpr rfl)

/-- Both role views are well-formed. -/
def VocabsWF (vs : Vocabs) : Prop := VWF vs.srcView ∧ VWF vs.tgtView

/-- Each role view of `a` is an initial segment of the same view of
`b`: growing lookups only ever append. -/
def VocabsExt (a b : Vocabs) : Prop :=
  (∃ w, a.srcView ++ w = b.srcView) ∧ (∃ w, a.tgtView ++ w = b.tgtView)

theorem vocabsExt_refl (vs : Vocabs) : VocabsExt vs vs :=
  ⟨⟨[], List.append_nil _⟩, ⟨[], List.append_nil _⟩⟩

theorem vocabsExt_trans {a b c : Vocabs} (h1 : VocabsExt a b) (h2 : VocabsExt b c) :
    VocabsExt a c := by
  obtain ⟨⟨w1, hw1⟩, ⟨w2, hw2⟩⟩ := h1
  obtain ⟨⟨w3, hw3⟩, ⟨w4, hw4⟩⟩ := h2
  exact ⟨⟨w1 ++ w3, by rw [← List.append_assoc, hw1, hw3]⟩,
         ⟨w2 ++ w4, by rw [← List.append_assoc, hw2, hw4]⟩⟩

theorem mem_tgt_of_ext {a b : Vocabs} (h : VocabsExt a b) {t : Tok} {i : Nat}
    (hm : (t, i) ∈ a.tgtView) : (t, i) ∈ b.tgtView := by
  obtain ⟨w, hw⟩ := h.2
  rw [← hw]
  exact List.mem_append_left _ hm

theorem srcStep_wf (frozen : Bool) (vs : Vocabs) (t : Tok) (h : VocabsWF vs) :
    VocabsWF (srcStep frozen vs t).2 := by
  unfold srcStep
  split
  · exact h
  · cases vs with
    | shared v => exact ⟨lookupGrow_wf t h.1, lookupGrow_wf t h.2⟩
    | separate sv gv => exact ⟨lookupGrow_wf t h.1, h.2⟩

theorem tgtStep_wf (frozen : Bool) (vs : Vocabs) (t : Tok) (h : VocabsWF vs) :
    VocabsWF (tgtStep frozen vs t).2 := by
  unfold tgtStep
  split
  · exact h
  · cases vs with
    | shared v => exact ⟨lookupGrow_wf t h.1, lookupGrow_wf t h.2⟩
    | separate sv gv => exact ⟨h.1, lookupGrow_wf t h.2⟩

theorem srcStep_ext (frozen : Bool) (vs : Vocabs) (t : Tok) :
    VocabsExt vs (srcStep frozen vs t).2 := by
  unfold srcStep
  split
  · exact vocabsExt_refl vs
  · cases vs with
    | shared v => exact ⟨lookupGrow_ext v t, lookupGrow_ext v t⟩
    | separate sv gv => exact ⟨lookupGrow_ext sv t, ⟨[], List.append_nil _⟩⟩

theorem tgtStep_ext (frozen : Bool) (vs : Vocabs) (t : Tok) :
    VocabsExt vs (tgtStep frozen vs t).2 := by
  unfold tgtStep
  split
  · exact vocabsExt_refl vs
  · cases vs with
    | shared v => exact ⟨lookupGrow_ext v t, lookupGrow_ext v t⟩
    | separate sv gv => exact ⟨⟨[], List.append_nil _⟩, lookupGrow_ext gv t⟩

theorem tgtStep_false_mem (vs : Vocabs) (t : Tok) :
    (t, (tgtStep false vs t).1) ∈ ((tgtStep false vs t).2).tgtView := by
  cases vs with
  | shared v => exact lookupGrow_mem v t
  | separate sv gv => exact lookupGrow_mem gv t

theorem encodeSeq_ext (step : Vocabs → Tok → Nat × Vocabs)
    (hstep : ∀ vs t, VocabsExt vs (step vs t).2) :
    ∀ (ts : List Tok) (vs : Vocabs), VocabsExt vs (encodeSeq step vs ts).2 := by
  intro ts
  induction ts with
  | nil => intro vs; exact vocabsExt_refl vs
  | cons t ts ih =>
    intro vs
    exact vocabsExt_trans (hstep vs t) (ih (step vs t).2)

theorem encodeSeq_wf (step : Vocabs → Tok → Nat × Vocabs)
    (hstep : ∀ vs t, VocabsWF vs → VocabsWF (step vs t).2) :
    ∀ (ts : List Tok) (vs : Vocabs), VocabsWF vs → VocabsWF (encodeSeq step vs ts).2 := by
  intro ts
  induction ts with
  | nil => intro vs h; exact h
  | cons t ts ih =>
    intro vs h
    exact ih (step vs t).2 (hstep vs t h)

theorem encodeSamples_ext (frozen : Bool) (sM tM : Nat) :
    ∀ (raw : List (List Tok × List Tok)) (vs : Vocabs),
    VocabsExt vs (encodeSamples frozen sM tM vs raw).2 := by
  intro raw
  induction raw with
  | nil => intro vs; exact vocabsExt_refl vs
  | cons hd rest ih =>
    intro vs
    obtain ⟨src, tgt⟩ := hd
    refine vocabsExt_trans (encodeSeq_ext _ (srcStep_ext frozen) src vs) ?_
    refine vocabsExt_trans (encodeSeq_ext _ (tgtStep_ext frozen) tgt _) ?_
    exact ih _

theorem encodeSamples_wf (frozen : Bool) (sM tM : Nat) :
    ∀ (raw : List (List Tok × List Tok)) (vs : Vocabs),
    VocabsWF vs → VocabsWF (encodeSamples frozen sM tM vs raw).2 := by
  intro raw
  induction raw with
  | nil => intro vs h; exact h
  | cons hd rest ih =>
    intro vs h
    obtain ⟨src, tgt⟩ := hd
    exact ih _ (encodeSeq_wf _ (tgtStep_wf frozen) tgt _
      (encodeSeq_wf _ (srcStep_wf frozen) src vs h))

theorem initVocabs_wf (share : Bool) : VocabsWF (initVocabs share) := by
  cases share
  · exact ⟨vwf_constants, vwf_constants⟩
  · exact ⟨vwf_constants, vwf_constants⟩

theorem encodeSeq_tgt_ids :
    ∀ (ts : List Tok) (vs : Vocabs) (j : Nat) (t : Tok),
    ts[j]? = some t →
    ∃ i, (encodeSeq (tgtStep false) vs ts).1[j]? = some i ∧
      (t, i) ∈ ((encodeSeq (tgtStep false) vs ts).2).tgtView := by
  intro ts
  induction ts with
  | nil =>
    intro vs j t h
    simp at h
  | cons t0 ts ih =>
    intro vs j t h
    cases j with
    | zero =>
      rw [List.getElem?_cons_zero] at h
      obtain rfl := Option.some.inj h
      simp only [encodeSeq, List.getElem?_cons_zero]
      refine ⟨(tgtStep false vs t0).1, rfl, ?_⟩
      exact mem_tgt_of_ext (encodeSeq_ext _ (tgtStep_ext false) ts _)
        (tgtStep_false_mem vs t0)
    | succ j =>
      rw [List.getElem?_cons_succ] at h
      simp only [encodeSeq, List.getElem?_cons_succ]
      exact ih _ j t h

theorem encodeSamples_tgt_rows (sM tM : Nat) :
    ∀ (raw : List (List Tok × List Tok)) (vs : Vocabs) (k : Nat)
      (pr : List Tok × List Tok), raw[k]? = some pr →
    ∃ (row : List Nat × List Nat) (ids : List Nat),
      (encodeSamples false sM tM vs raw).1[k]? = some row ∧
      row.2 = ids ++ EOS :: List.replicate (tM - pr.2.length) PAD ∧
      ids.length = pr.2.length ∧
      (∀ (j : Nat) (t : Tok), pr.2[j]? = some t →
        ∃ i, ids[j]? = some i ∧
          (t, i) ∈ ((encodeSamples false sM tM vs raw).2).tgtView) := by
  intro raw
  induction raw with
  | nil =>
    intro vs k pr h
    simp at h
  | cons hd rest ih =>
    intro vs k pr h
    obtain ⟨src, tgt⟩ := hd
    cases k with
    | zero =>
      rw [List.getElem?_cons_zero] at h
      obtain rfl := Option.some.inj h
      simp only [encodeSamples, List.getElem?_cons_zero]
      refine ⟨_, (encodeSeq (tgtStep false)
        ((encodeSeq (srcStep false) vs src).2) tgt).1, rfl, rfl,
        encodeSeq_length _ tgt _, ?_⟩
      intro j t hj
      obtain ⟨i, hi, hm⟩ := encodeSeq_tgt_ids tgt _ j t hj
      refine ⟨i, hi, ?_⟩
      exact mem_tgt_of_ext (encodeSamples_ext false sM tM rest _) hm
    | succ k =>
      rw [List.getElem?_cons_succ] at h
      simp only [encodeSamples, List.getElem?_cons_succ]
      exact ih _ k pr h

theorem row_getElem {ids : List Nat} {m j i : Nat}
    (h : (ids ++ EOS :: List.replicate m PAD)[j]? = some i) :
    (j < ids.length ∧ ids[j]? = some i) ∨ (j = ids.length ∧ i = EOS) ∨
    (ids.length < j ∧ i = PAD) := by
  rw [List.getElem?_append] at h
  split at h
  · rename_i hj
    exact Or.inl ⟨hj, h⟩
  · rename_i hj
    push_neg at hj
    rcases Nat.eq_or_lt_of_le hj with he | hlt
    · rw [show j - ids.length = 0 from by omega, List.getElem?_cons_zero] at h
      exact Or.inr (Or.inl ⟨he.symm, (Option.some.inj h).symm⟩)
    · rw [show j - ids.length = (j - ids.length - 1) + 1 from by omega,
        List.getElem?_cons_succ, List.getElem?_replicate] at h
      split at h
      · exact Or.inr (Or.inr ⟨hlt, (Option.some.inj h).symm⟩)
      · exact Option.noConfusion h

theorem ilookup_unique {t : Tok} {i : Nat} :
    ∀ {v : Vocab}, (v.map Prod.snd).Nodup → (t, i) ∈ v → ilookup i v = some t := by
  intro v
  induction v with
  | nil => intro _ hm; cases hm
  | cons p rest ih =>
    intro hnd hm
    obtain ⟨t0, j0⟩ := p
    rw [List.map_cons] at hnd
    obtain ⟨hj0, hnd2⟩ := List.nodup_cons.mp hnd
    rcases List.mem_cons.mp hm with he | he
    · injection he with ht hi
      subst ht
      subst hi
      simp [ilookup]
    · by_cases hj : j0 = i
      · exfalso
        subst hj
        exact hj0 (List.mem_map.mpr ⟨(t, j0), he, rfl⟩)
      · simp only [ilookup, if_neg hj]
        exact ih hnd2 he

theorem ilookup_none {i : Nat} :
    ∀ {w : Vocab}, (∀ t : Tok, (t, i) ∉ w) → ilookup i w = none := by
  intro w
  induction w with
  | nil => intro _; rfl
  | cons p rest ih =>
    intro h
    obtain ⟨t0, j0⟩ := p
    have hj : ¬(j0 = i) := fun he => h t0 (by rw [he] at *; exact List.mem_cons_self _ _)
    simp only [ilookup, if_neg hj]
    exact ih (fun t ht => h t (List.mem_cons_of_mem _ ht))

theorem vwf_nodup {v : Vocab} (h : VWF v) : (v.map Prod.snd).Nodup := by
  rw [h]
  exact List.nodup_range _

theorem tgtReverseLookup_of_mem {v : Vocab} (hwf : VWF v) {t : Tok} {i : Nat}
    (hm : (t, i) ∈ v) : tgtReverseLookup v i = t := by
  unfold tgtReverseLookup
  have hnd : (v.reverse.map Prod.snd).Nodup := by
    rw [List.map_reverse]
    exact List.nodup_reverse.mpr (vwf_nodup hwf)
  rw [ilookup_unique hnd (List.mem_reverse.mpr hm)]
  rfl

theorem tgtReverseLookup_absent {v : Vocab} {i : Nat}
    (h : ∀ t : Tok, (t, i) ∉ v) : tgtReverseLookup v i = "<UNK>".data := by
  unfold tgtReverseLookup
  rw [ilookup_none (fun t ht => h t (List.mem_reverse.mp ht))]
  rfl

/-- Claim C8: round-trip through the cached inverse map.  For a
growing-vocabulary dataset (the vocabulary does not grow after loading,
so the inverse map built from the final state is exact), reverse-looking
up any non-PAD, non-UNK id of an encoded target row returns the
original token of that position, with the appended EOS id mapping to
the `EOS` marker token (and positions past the EOS slot hold only PAD);
and reverse lookup of an id absent from the inverse map returns the
literal `<UNK>` marker instead of failing. -/
theorem claim_C8 :
    (∀ (share : Bool) (lines : List (List Char)) (d : LoadedData),
      mkDataset share lines = .ok d →
      ∀ (k : Nat) (pr : List Tok × List Tok) (row : List Nat × List Nat),
      d.raw_samples[k]? = some pr → d.samples[k]? = some row →
      ∀ (j i : Nat), row.2[j]? = some i → i ≠ PAD → i ≠ UNK →
        (j < pr.2.length → ∃ t, pr.2[j]? = some t ∧
          tgtReverseLookup d.vocabs.tgtView i = t) ∧
        (j = pr.2.length → i = EOS ∧
          tgtReverseLookup d.vocabs.tgtView i = "EOS".data) ∧
        j ≤ pr.2.length) ∧
    (∀ (v : Vocab) (i : Nat), (∀ t : Tok, (t, i) ∉ v) →
      tgtReverseLookup v i = "<UNK>".data) := by
  constructor
  · intro share lines d h k pr row hk hrow j i hji hPAD hUNK
    obtain ⟨raw, sM, tM, hraw, hsm, htm, hd⟩ := load_ok_elim h
    have hraw_eq : d.raw_samples = raw := by rw [hd]
    have hsamp_eq : d.samples =
        (encodeSamples false sM tM (initVocabs share) raw).1 := by rw [hd]
    have hvoc_eq : d.vocabs =
        (encodeSamples false sM tM (initVocabs share) raw).2 := by rw [hd]
    rw [hraw_eq] at hk
    rw [hsamp_eq] at hrow
    obtain ⟨row2, ids, hrow2, hdecomp, hlen, hids⟩ :=
      encodeSamples_tgt_rows sM tM raw (initVocabs share) k pr hk
    rw [hrow2] at hrow
    obtain rfl := Option.some.inj hrow
    have hwf : VocabsWF (encodeSamples false sM tM (initVocabs share) raw).2 :=
      encodeSamples_wf false sM tM raw _ (initVocabs_wf share)
    rw [hvoc_eq]
    rw [hdecomp] at hji
    rcases row_getElem hji with ⟨hjlt, hid⟩ | ⟨hje, hie⟩ | ⟨hjgt, hie⟩
    · rw [hlen] at hjlt
      have ht : pr.2[j]? = some (pr.2.getD j []) := by
        rw [List.getElem?_eq_getElem (by omega), List.getD_eq_getElem _ _ (by omega)]
      obtain ⟨i2, hi2, hm⟩ := hids j _ ht
      rw [hid] at hi2
      obtain rfl := Option.some.inj hi2
      exact ⟨fun _ => ⟨_, ht, tgtReverseLookup_of_mem hwf.2 hm⟩,
        fun hje => absurd hje (by omega), by omega⟩
    · subst hie
      rw [hlen] at hje
      refine ⟨fun hlt => absurd hlt (by omega), fun _ => ⟨rfl, ?_⟩, by omega⟩
      have hmEOS : ("EOS".data, EOS) ∈ ((initVocabs share).tgtView) := by
        cases share <;> (show ("EOS".data, EOS) ∈ CONSTANTS; decide)
      exact tgtReverseLookup_of_mem hwf.2
        (mem_tgt_of_ext (encodeSamples_ext false sM tM raw _) hmEOS)
    · exact absurd hie hPAD
  · intro v i h
    exact tgtReverseLookup_absent h

/-- Witness for C8: dataset from the single line `"a\tb"`; position 0
of the encoded target row holds the id 4 of token `b`, and reverse
lookup returns `b`; an id absent from the reserved vocabulary returns
the `<UNK>` marker. -/
theorem claim_C8_witness :
    (∃ d, mkDataset false ["a\tb".data] = .ok d ∧
      ((0 < 1 → ∃ t, ([ "b".data ] : List Tok)[0]? = some t ∧
        tgtReverseLookup d.vocabs.tgtView 4 = t) ∧
       (0 = 1 → 4 = EOS ∧ tgtReverseLookup d.vocabs.tgtView 4 = "EOS".data) ∧
       (0 : Nat) ≤ 1)) ∧
    tgtReverseLookup CONSTANTS 99 = "<UNK>".data :=
  ⟨⟨_, rfl, claim_C8.1 false ["a\tb".data] _ rfl 0 (["a".data], ["b".data])
      ([4], [4, 2]) rfl rfl 0 4 rfl (by decide) (by decide)⟩,
   claim_C8.2 CONSTANTS 99 (by
    intro t ht
    simp only [CONSTANTS, List.mem_cons, List.not_mem_nil, or_false] at ht
    rcases ht with h | h | h | h <;>
      · have h2 := congrArg Prod.snd h
        simp [PAD, SOS, EOS, UNK] at h2)⟩

end MorphData
